import Mathlib

/-!
Verification of the FIPS-186-style pseudorandom bit generator and the
statistical test suite of `FIPS.py`.

The Python source is shallowly embedded: Python integers become `Nat`
(or `Int`/`ℚ` where the source computes signed or fractional values),
with 32-bit wrap-around written as explicit reductions modulo `2 ^ 32`;
byte strings become `List Nat`; bit strings become `List Char`; code that
can raise returns `Except`/`Option`.
-/

/-- `2 ^ 32`, the modulus of all 32-bit arithmetic inside `G`. -/
def two32 : Nat := 4294967296

/-- The literal mask `0xFFFFFFFF` the Python code applies with `& 0xFFFFFFFF`. -/
def mask32 : Nat := 0xFFFFFFFF

/-- Python's `(~b) & d` on nonnegative ints: in infinite two's complement,
bit `i` of `~b` is the negation of bit `i` of `b`, so `(~b) & d` keeps exactly
those bits of `d` that are clear in `b`; over `Nat` that value is
`d ^^^ (b &&& d)`. -/
def pyNotAnd (b d : Nat) : Nat := d ^^^ (b &&& d)

/-- One round of the SHA-1 loop exactly as `FIPS.py` lines 58-67 write it:
`f`, the rotated `C` and the shifted registers are left unreduced, and only
the new `A` is masked with `0xFFFFFFFF`.  State order is `(A, B, C, D, E)`
and the update is `E=D; D=C; C=(B<<30)|(B>>2); B=A; A=temp & 0xFFFFFFFF`. -/
def roundG (s : Nat × Nat × Nat × Nat × Nat) (w : Nat) : Nat × Nat × Nat × Nat × Nat :=
  let A := s.1
  let B := s.2.1
  let C := s.2.2.1
  let D := s.2.2.2.1
  let E := s.2.2.2.2
  let f := (B &&& C) ||| pyNotAnd B D
  let k := 0x5A827999
  let temp := ((A <<< 5) ||| (A >>> 27)) + f + E + k + w
  (temp &&& mask32, A, (B <<< 30) ||| (B >>> 2), C, D)

/-- One round as the specification's reference algorithm states it: the same
update with every intermediate reduced modulo `2 ^ 32`, and `~B` read as the
32-bit complement `B ^^^ 0xFFFFFFFF`. -/
def roundRef (s : Nat × Nat × Nat × Nat × Nat) (w : Nat) : Nat × Nat × Nat × Nat × Nat :=
  let A := s.1
  let B := s.2.1
  let C := s.2.2.1
  let D := s.2.2.2.1
  let E := s.2.2.2.2
  let f := ((B &&& C) ||| ((B ^^^ mask32) &&& D)) % two32
  let rot5 := ((A <<< 5) ||| (A >>> 27)) % two32
  let temp := (rot5 + f + E + 0x5A827999 + w) % two32
  (temp, A, ((B <<< 30) ||| (B >>> 2)) % two32, C, D)

/-- `M = c + b'\x00' * (64 - len(c))`: right-pad with zero bytes to 64 bytes.
Like Python's byte-string multiplication by a negative count, truncated `Nat`
subtraction makes the padding empty when `c` is longer than 64 bytes. -/
def padBlock (c : List Nat) : List Nat := c ++ List.replicate (64 - c.length) 0

/-- Big-endian `int.from_bytes`. -/
def beBytesToNat (l : List Nat) : Nat := l.foldl (fun acc b => acc * 256 + b) 0

/-- The sixteen words `W`: `int.from_bytes(M[i:i+4], 'big')` for
`i = 0, 4, ..., 60`. -/
def words (M : List Nat) : List Nat :=
  (List.range 16).map (fun i => beBytesToNat ((M.drop (4 * i)).take 4))

/-- `x.to_bytes(4, 'big')`; the source only calls it on values already masked
to 32 bits, where no overflow can occur. -/
def natToBytes4 (x : Nat) : List Nat :=
  [x / 16777216 % 256, x / 65536 % 256, x / 256 % 256, x % 256]

/-- The 16-iteration `for i in range(16)` loop of `G`, starting from the five
hard-coded constants `H0..H4`. -/
def Gcore (W : List Nat) : Nat × Nat × Nat × Nat × Nat :=
  W.foldl roundG (0x67452301, 0xEFCDAB89, 0x98BADCFE, 0x10325476, 0xC3D2E1F0)

/-- `FIPS186Generator.G` (`FIPS.py` lines 31-78): pad, split into sixteen
big-endian words, run the 16 rounds, add the post-loop registers to the
initial constants under `& 0xFFFFFFFF`, and emit the 20-byte big-endian
concatenation `H0‖H1‖H2‖H3‖H4`. -/
def Gfun (c : List Nat) : List Nat :=
  let s := Gcore (words (padBlock c))
  natToBytes4 ((0x67452301 + s.1) &&& mask32) ++
  natToBytes4 ((0xEFCDAB89 + s.2.1) &&& mask32) ++
  natToBytes4 ((0x98BADCFE + s.2.2.1) &&& mask32) ++
  natToBytes4 ((0x10325476 + s.2.2.2.1) &&& mask32) ++
  natToBytes4 ((0xC3D2E1F0 + s.2.2.2.2) &&& mask32)

/-- The reference loop of the specification: 16 fully reduced rounds. -/
def GcoreRef (W : List Nat) : Nat × Nat × Nat × Nat × Nat :=
  W.foldl roundRef (0x67452301, 0xEFCDAB89, 0x98BADCFE, 0x10325476, 0xC3D2E1F0)

/-- The reference compression function described by the specification: the
same padding and word split as `Gfun`, but with every round intermediate and
every final sum reduced modulo `2 ^ 32`. -/
def Gref (c : List Nat) : List Nat :=
  let s := GcoreRef (words (padBlock c))
  natToBytes4 ((0x67452301 + s.1) % two32) ++
  natToBytes4 ((0xEFCDAB89 + s.2.1) % two32) ++
  natToBytes4 ((0x98BADCFE + s.2.2.1) % two32) ++
  natToBytes4 ((0x10325476 + s.2.2.2.1) % two32) ++
  natToBytes4 ((0xC3D2E1F0 + s.2.2.2.2) % two32)

/-- ASCII whitespace as CPython's `Py_ISSPACE` recognises it: space, tab,
line feed, vertical tab, form feed, carriage return. -/
def isPyWhitespace (c : Char) : Bool :=
  decide (c = ' ') || decide (c = '\t') || decide (c = '\n') ||
  decide (c = '\x0b') || decide (c = '\x0c') || decide (c = '\r')

/-- Hexadecimal digit as `bytes.fromhex` accepts them. -/
def isHexDigit (c : Char) : Bool :=
  (decide ('0' ≤ c) && decide (c ≤ '9')) || (decide ('a' ≤ c) && decide (c ≤ 'f')) ||
  (decide ('A' ≤ c) && decide (c ≤ 'F'))

/-- Numeric value of a hexadecimal digit. -/
def hexVal (c : Char) : Nat :=
  if '0' ≤ c ∧ c ≤ '9' then c.toNat - 48
  else if 'a' ≤ c then c.toNat - 87
  else c.toNat - 55

/-- `bytes.fromhex` (CPython ≥ 3.7): repeatedly skip ASCII whitespace, then
read two hexadecimal digits that must be adjacent; anything else fails. -/
def fromhex : List Char → Option (List Nat)
  | [] => some []
  | c :: rest =>
    if isPyWhitespace c then fromhex rest
    else
      match rest with
      | [] => none
      | d :: rest2 =>
        if isHexDigit c && isHexDigit d then
          (fromhex rest2).map (fun bs => (hexVal c * 16 + hexVal d) :: bs)
        else none

/-- `t.replace(" ", "")`: remove space characters — only `' '` itself, no
other whitespace. -/
def stripSpaces (s : List Char) : List Char := s.filter (fun c => decide (c ≠ ' '))

/-- The claim's reading of "after removing whitespace": strip every ASCII
whitespace character, not only spaces. -/
def stripAllWhitespace (s : List Char) : List Char :=
  s.filter (fun c => !(isPyWhitespace c))

/-- The state a `FIPS186Generator` instance holds after `__init__`: the seed
size `b`, the modulus `q = (1 << b) - 1`, the accumulator `z`, and the parsed
auxiliary word `t` as bytes. -/
structure FIPS186Generator where
  b : Nat
  q : Nat
  z : Nat
  t : List Nat
  deriving DecidableEq

/-- `FIPS186Generator.__init__` (`FIPS.py` lines 7-29).  The ambient entropy
source `random.getrandbits(b)` is abstracted as the injected argument `seed`
(theorems carry the getrandbits range `seed < 2 ^ b` as a hypothesis); a
`ValueError` raise is modelled as `Except.error`.  The source's default
auxiliary word (used when `t is None`) is supplied by the caller. -/
def initGen (b : Nat) (t : List Char) (seed : Nat) : Except String FIPS186Generator :=
  if 160 ≤ b ∧ b ≤ 512 then
    if (stripSpaces t).length = 40 then
      match fromhex (stripSpaces t) with
      | some bytes => .ok ⟨b, 2 ^ b - 1, seed, bytes⟩
      | none => .error "ValueError: invalid hexadecimal format"
    else .error "ValueError: t must be a 160-bit word (40 hex characters)"
  else .error "ValueError: b must be between 160 and 512"

/-- The method `G(self, c)`: it reads none of the generator's fields — in
particular not the stored auxiliary word `t`, whose five words the docstring
says should seed `H0..H4` — and computes `Gfun c` from hard-coded constants. -/
def FIPS186Generator.G (_g : FIPS186Generator) (c : List Nat) : List Nat := Gfun c

/-- `x.to_bytes(len, 'big')` for values that fit (the generator only
serialises `z mod q < 2 ^ b ≤ 2 ^ (8 * len)`, so no `OverflowError` occurs). -/
def natToBytesBE (len x : Nat) : List Nat :=
  (List.range len).map (fun i => x / 256 ^ (len - 1 - i) % 256)

/-- The digits of `bin(v)` after the `0b` prefix, most significant first;
empty for `v = 0`. -/
def binDigits (v : Nat) : List Char :=
  if h : v = 0 then []
  else binDigits (v / 2) ++ [if v % 2 = 1 then '1' else '0']
termination_by v
decreasing_by exact Nat.div_lt_self (Nat.pos_of_ne_zero h) (by norm_num)

/-- Python's `bin(v)[2:]`: the string `"0"` for zero, else the digits. -/
def natToBin (v : Nat) : List Char := if v = 0 then ['0'] else binDigits v

/-- `str.zfill(n)`: left-pad with `'0'` up to length `n`. -/
def zfill (n : Nat) (s : List Char) : List Char :=
  List.replicate (n - s.length) '0' ++ s

/-- Reading a `{'0','1'}` string as a binary integer, most significant bit
first. -/
def bitsToNat (s : List Char) : Nat :=
  s.foldl (fun acc c => 2 * acc + (if c = '1' then 1 else 0)) 0

/-- One iteration of the `while` loop of `generate_sequence` (`FIPS.py`
lines 88-108): `y` is fixed at zero, `x` is the previous digest as an
integer (`0` before the first iteration).  Returns the updated generator,
the digest value (the `x` of the next iteration) and the appended
characters `bin(value)[2:].zfill(160)`. -/
def genStep (g : FIPS186Generator) (x : Nat) : FIPS186Generator × Nat × List Char :=
  let y := 0
  let z := (g.z + y) % g.q
  let zBytes := natToBytesBE ((g.b + 7) / 8) z
  let c := g.G zBytes
  let z2 := (1 + z + x) % g.q
  let value := beBytesToNat c
  let bits := zfill 160 (natToBin value)
  ({ g with z := z2 }, value, bits)

/-- The `while len(result_bits) < count` loop of `generate_sequence`. -/
def genLoop (g : FIPS186Generator) (count : Int) (x : Nat) (acc : List Char) :
    List Char × FIPS186Generator :=
  if h : (acc.length : Int) < count then
    genLoop (genStep g x).1 count (genStep g x).2.1 (acc ++ (genStep g x).2.2)
  else (acc, g)
termination_by count.toNat - acc.length
decreasing_by
  have hb : 1 ≤ ((genStep g x).2.2).length := by
    simp only [genStep, zfill, List.length_append, List.length_replicate]
    omega
  simp only [List.length_append]
  omega

/-- Python's `s[:count]` for an `int` count: a nonnegative count takes the
first `count` characters, a negative count indexes from the end (clamped at
zero). -/
def pySliceTo (s : List Char) (count : Int) : List Char :=
  if count < 0 then s.take (s.length - (-count).toNat) else s.take count.toNat

/-- `FIPS186Generator.generate_sequence` (`FIPS.py` lines 80-111): start from
an empty buffer and `x = 0`, loop until the buffer holds at least `count`
characters, return `result_bits[:count]` together with the updated
generator. -/
def generate_sequence (g : FIPS186Generator) (count : Int) :
    List Char × FIPS186Generator :=
  (pySliceTo (genLoop g count 0 []).1 count, (genLoop g count 0 []).2)

/-- The exact-valued diagnostic fields of the runs test. -/
structure RunsReport where
  n : Nat
  pi : ℚ
  v : Nat
  deriving DecidableEq

/-- `runs_test` (`FIPS.py` lines 142-166), embedded over `ℚ`.  Python raises
`ZeroDivisionError` at `pi = ones / n` when `n = 0`, and at
`S = |v − 2nπ(1−π)| / (2·(nπ(1−π)) ** 0.5)` when `nπ(1−π) = 0` (the float
denominator is exactly `0.0` there); both raises are modelled as
`Except.error "ZeroDivisionError"`.  The statistic `S` itself needs a square
root and is not carried; the report keeps the exact intermediates. -/
def runs_test (bits : List Char) : Except String RunsReport :=
  let n := bits.length
  if n = 0 then .error "ZeroDivisionError"
  else
    let ones := bits.count '1'
    let pi : ℚ := (ones : ℚ) / (n : ℚ)
    let v := 1 + (bits.zip (bits.drop 1)).countP (fun p => decide (p.1 ≠ p.2))
    if (n : ℚ) * pi * (1 - pi) = 0 then .error "ZeroDivisionError"
    else .ok ⟨n, pi, v⟩

/-- The per-state visit counts of the 18-state test. -/
structure CusumReport where
  k : Nat
  visits : List (Int × Nat)
  deriving DecidableEq

/-- `cumulative_sums_test_extended` (`FIPS.py` lines 178-226), embedded over
`ℚ`.  The partial sums `S`, the centred values `S'` and the visit counts are
exact.  The per-state statistic `Vj = |ξj − k/(L+1)| / (k(L−1)/(L+1)) ** 0.5`
is where the code can raise, at the first state `j = -9`: when `L + 1 = 0`
(empty input) the division `k/(L+1)` raises `ZeroDivisionError`; when
`k(L−1)/(L+1) < 0` Python's `** 0.5` returns a complex number and the later
threshold comparison raises `TypeError`; when `k(L−1)/(L+1) = 0` the division
by `0.0 ** 0.5 = 0.0` raises `ZeroDivisionError`.  A successful run returns
the visit counts. -/
def cumulative_sums_test_extended (bits : List Char) : Except String CusumReport :=
  let k := bits.length
  let x := bits.map (fun c => if c = '1' then (1 : Int) else -1)
  let S : List Int := (x.scanl (fun a xi => a + xi) (0 : Int)).drop 1
  let Sprime : List ℚ := S.mapIdx (fun i s => (s : ℚ) - ((i : ℚ) + 1) / 2)
  let L : Int := (k : Int) - 1
  let states : List Int := (List.range 19).map (fun j => (j : Int) - 9)
  let visits := states.map
    (fun (j : Int) => (j, Sprime.countP (fun s => decide (|s - (j : ℚ)| < 1 / 2))))
  if ((L : ℚ) + 1) = 0 then .error "ZeroDivisionError"
  else if (k : ℚ) * ((L : ℚ) - 1) / ((L : ℚ) + 1) < 0 then .error "TypeError"
  else if (k : ℚ) * ((L : ℚ) - 1) / ((L : ℚ) + 1) = 0 then .error "ZeroDivisionError"
  else .ok ⟨k, visits⟩

theorem and_two_pow_sub_one (x n : Nat) : x &&& (2 ^ n - 1) = x % 2 ^ n := by
  apply Nat.eq_of_testBit_eq
  intro i
  simp only [Nat.testBit_land, Nat.testBit_two_pow_sub_one, Nat.testBit_mod_two_pow]
  exact Bool.and_comm _ _

theorem and_mask32 (x : Nat) : x &&& mask32 = x % two32 := by
  have h : mask32 = 2 ^ 32 - 1 := by norm_num [mask32]
  have h2 : two32 = 2 ^ 32 := by norm_num [two32]
  rw [h, h2, and_two_pow_sub_one]

theorem lor_mod_two_pow (x y n : Nat) : (x ||| y) % 2 ^ n = x % 2 ^ n ||| y % 2 ^ n := by
  apply Nat.eq_of_testBit_eq
  intro i
  simp only [Nat.testBit_mod_two_pow, Nat.testBit_lor]
  by_cases h : i < n <;> simp [h]

theorem land_mod_two_pow (x y n : Nat) : (x &&& y) % 2 ^ n = x % 2 ^ n &&& y % 2 ^ n := by
  apply Nat.eq_of_testBit_eq
  intro i
  simp only [Nat.testBit_mod_two_pow, Nat.testBit_land]
  by_cases h : i < n <;> simp [h]

theorem pyNotAnd_mod (b d n : Nat) : pyNotAnd b d % 2 ^ n = pyNotAnd b (d % 2 ^ n) := by
  unfold pyNotAnd
  apply Nat.eq_of_testBit_eq
  intro i
  simp only [Nat.testBit_mod_two_pow, Nat.testBit_xor, Nat.testBit_land]
  by_cases h : i < n <;> simp [h]

theorem pyNotAnd_eq_of_lt (b d n : Nat) (hb : b < 2 ^ n) (hd : d < 2 ^ n) :
    pyNotAnd b d = (b ^^^ (2 ^ n - 1)) &&& d := by
  unfold pyNotAnd
  apply Nat.eq_of_testBit_eq
  intro i
  by_cases h : i < n
  · simp only [Nat.testBit_xor, Nat.testBit_land, Nat.testBit_two_pow_sub_one, h, decide_True]
    cases hbi : b.testBit i <;> cases hdi : d.testBit i <;> rfl
  · have hle : 2 ^ n ≤ 2 ^ i := Nat.pow_le_pow_right (by norm_num) (le_of_not_lt h)
    have hbi : b.testBit i = false := Nat.testBit_lt_two_pow (lt_of_lt_of_le hb hle)
    have hdi : d.testBit i = false := Nat.testBit_lt_two_pow (lt_of_lt_of_le hd hle)
    simp [Nat.testBit_xor, Nat.testBit_land, Nat.testBit_two_pow_sub_one, h, hbi, hdi]

/-- The simulation relation between a state of the Python loop and a state of
the fully reduced reference loop: `A` and `B` agree exactly (the code masks
`A`, and `B` is a former `A`), while the unreduced `C`, `D`, `E` agree after
reduction modulo `2 ^ 32`. -/
def SimRel (s t : Nat × Nat × Nat × Nat × Nat) : Prop :=
  s.1 = t.1 ∧ s.2.1 = t.2.1 ∧ s.1 < two32 ∧ s.2.1 < two32 ∧
  s.2.2.1 % two32 = t.2.2.1 ∧ s.2.2.2.1 % two32 = t.2.2.2.1 ∧
  s.2.2.2.2 % two32 = t.2.2.2.2

theorem two32_eq : two32 = 2 ^ 32 := by norm_num [two32]

theorem round_inv (s t : Nat × Nat × Nat × Nat × Nat) (w : Nat) (h : SimRel s t) :
    SimRel (roundG s w) (roundRef t w) := by
  obtain ⟨h1, h2, h3, h4, h5, h6, h7⟩ := h
  have hmod5 : ∀ a b c k v : Nat,
      (a + b + c + k + v) % two32 = (a % two32 + b % two32 + c % two32 + k + v) % two32 := by
    intro a b c k v
    unfold two32
    omega
  have hf : ((s.2.1 &&& s.2.2.1) ||| pyNotAnd s.2.1 s.2.2.2.1) % two32 =
      ((t.2.1 &&& t.2.2.1) ||| ((t.2.1 ^^^ mask32) &&& t.2.2.2.1)) % two32 := by
    rw [two32_eq, lor_mod_two_pow, land_mod_two_pow, pyNotAnd_mod]
    rw [Nat.mod_eq_of_lt (by rw [← two32_eq]; exact h4)]
    rw [← two32_eq, h5, h6]
    have hd : t.2.2.2.1 < two32 := by rw [← h6, two32_eq]; exact Nat.mod_lt _ (by norm_num)
    rw [two32_eq] at hd ⊢
    rw [pyNotAnd_eq_of_lt _ _ 32 (by rw [← two32_eq] at *; exact h2 ▸ h4) hd]
    have hm : mask32 = 2 ^ 32 - 1 := by norm_num [mask32]
    rw [hm, h2]
    rw [lor_mod_two_pow]
    rw [Nat.mod_eq_of_lt (lt_of_le_of_lt Nat.and_le_right hd),
        Nat.mod_eq_of_lt (lt_of_le_of_lt Nat.and_le_left (by rw [← two32_eq] at *; exact h2 ▸ h4))]
  have htemp :
      ((((s.1 <<< 5) ||| (s.1 >>> 27)) + ((s.2.1 &&& s.2.2.1) ||| pyNotAnd s.2.1 s.2.2.2.1) +
          s.2.2.2.2 + 0x5A827999 + w) &&& mask32) =
      ((((t.1 <<< 5) ||| (t.1 >>> 27)) % two32 +
          ((t.2.1 &&& t.2.2.1) ||| ((t.2.1 ^^^ mask32) &&& t.2.2.2.1)) % two32 +
          t.2.2.2.2 + 0x5A827999 + w) % two32) := by
    rw [and_mask32, hmod5, hf, h7, h1]
  refine ⟨?_, h1, ?_, ?_, ?_, ?_, ?_⟩
  · simp only [roundG, roundRef]
    exact htemp
  · simp only [roundG]
    rw [and_mask32]
    exact Nat.mod_lt _ (by norm_num [two32])
  · simp only [roundG]
    exact h1 ▸ h3
  · simp only [roundG, roundRef]
    rw [h2]
  · simp only [roundG, roundRef]
    exact h5
  · simp only [roundG, roundRef]
    exact h6

theorem rounds_inv (ws : List Nat) (s t : Nat × Nat × Nat × Nat × Nat) (h : SimRel s t) :
    SimRel (ws.foldl roundG s) (ws.foldl roundRef t) := by
  induction ws generalizing s t with
  | nil => exact h
  | cons w ws ih => exact ih _ _ (round_inv s t w h)

theorem Gcore_inv (W : List Nat) : SimRel (Gcore W) (GcoreRef W) := by
  unfold Gcore GcoreRef
  apply rounds_inv
  refine ⟨rfl, rfl, by norm_num [two32], by norm_num [two32], ?_, ?_, ?_⟩ <;> norm_num [two32]

/-- C2: for every block of at most 64 bytes, the Python `G` — which leaves
`f`, `C`, `D`, `E` unreduced and masks only the new `A` and the final sums —
computes exactly the same 20-byte digest as the fully mod-`2^32`-reduced
reference algorithm of the specification. -/
theorem G_matches_reduced_reference (c : List Nat) (hlen : c.length ≤ 64)
    (hbytes : ∀ x ∈ c, x < 256) : Gfun c = Gref c := by
  have h := Gcore_inv (words (padBlock c))
  obtain ⟨h1, h2, h3, h4, h5, h6, h7⟩ := h
  have hadd : ∀ k x : Nat, (k + x) % two32 = (k + x % two32) % two32 := by
    intro k x
    unfold two32
    omega
  simp only [Gfun, Gref]
  rw [and_mask32, and_mask32, and_mask32, and_mask32, and_mask32, h1, h2]
  rw [hadd 0x98BADCFE, h5, hadd 0x10325476, h6, hadd 0xC3D2E1F0, h7]

/-- Witness for C2 at the concrete three-byte block `"abc"`. -/
theorem G_matches_reduced_reference_witness :
    Gfun [97, 98, 99] = Gref [97, 98, 99] :=
  G_matches_reduced_reference [97, 98, 99] (by decide) (by decide)

theorem natToBytes4_mem_lt (x : Nat) : ∀ y ∈ natToBytes4 x, y < 256 := by
  intro y hy
  simp only [natToBytes4, List.mem_cons, List.not_mem_nil, or_false] at hy
  rcases hy with rfl | rfl | rfl | rfl <;> exact Nat.mod_lt _ (by norm_num)

theorem Gfun_length (c : List Nat) : (Gfun c).length = 20 := by
  simp [Gfun, natToBytes4]

theorem Gfun_mem_lt (c : List Nat) : ∀ y ∈ Gfun c, y < 256 := by
  intro y hy
  simp only [Gfun, List.mem_append] at hy
  rcases hy with (((hy | hy) | hy) | hy) | hy <;> exact natToBytes4_mem_lt _ y hy

theorem beBytesToNat_foldl_lt (l : List Nat) : ∀ a : Nat, (∀ x ∈ l, x < 256) →
    List.foldl (fun acc b => acc * 256 + b) a l < (a + 1) * 256 ^ l.length := by
  induction l with
  | nil => intro a _; simpa using Nat.lt_succ_self a
  | cons b tl ih =>
    intro a h
    have hb : b < 256 := h b (by simp)
    have ht : ∀ x ∈ tl, x < 256 := fun x hx => h x (by simp [hx])
    have h1 := ih (a * 256 + b) ht
    have h2 : (a * 256 + b + 1) * 256 ^ tl.length ≤ (a + 1) * 256 ^ (tl.length + 1) := by
      have hstep : a * 256 + b + 1 ≤ (a + 1) * 256 := by omega
      calc (a * 256 + b + 1) * 256 ^ tl.length ≤ (a + 1) * 256 * 256 ^ tl.length :=
            Nat.mul_le_mul_right _ hstep
        _ = (a + 1) * 256 ^ (tl.length + 1) := by ring
    simp only [List.foldl_cons, List.length_cons]
    exact lt_of_lt_of_le h1 h2

theorem beBytesToNat_lt (l : List Nat) (h : ∀ x ∈ l, x < 256) :
    beBytesToNat l < 256 ^ l.length := by
  have := beBytesToNat_foldl_lt l 0 h
  simpa [beBytesToNat] using this

theorem G_value_lt (c : List Nat) : beBytesToNat (Gfun c) < 2 ^ 160 := by
  have h := beBytesToNat_lt (Gfun c) (Gfun_mem_lt c)
  rw [Gfun_length] at h
  calc beBytesToNat (Gfun c) < 256 ^ 20 := h
    _ = 2 ^ 160 := by norm_num

theorem binDigits_length_le (n : Nat) : ∀ v : Nat, v < 2 ^ n → (binDigits v).length ≤ n := by
  induction n with
  | zero =>
    intro v hv
    have h0 : v = 0 := by omega
    subst h0
    rw [binDigits]
    simp
  | succ n ih =>
    intro v hv
    by_cases h0 : v = 0
    · subst h0; rw [binDigits]; simp
    · rw [binDigits, dif_neg h0]
      have hdiv : v / 2 < 2 ^ n := by
        rw [Nat.div_lt_iff_lt_mul (by norm_num)]
        calc v < 2 ^ (n + 1) := hv
          _ = 2 ^ n * 2 := by ring
      have := ih (v / 2) hdiv
      simp only [List.length_append, List.length_singleton]
      omega

theorem zfill_length (n : Nat) (s : List Char) :
    (zfill n s).length = n - s.length + s.length := by
  simp [zfill]

theorem zfill_length_of_le (n : Nat) (s : List Char) (h : s.length ≤ n) :
    (zfill n s).length = n := by
  rw [zfill_length]; omega

theorem binDigits_mem (v : Nat) : ∀ ch ∈ binDigits v, ch = '0' ∨ ch = '1' := by
  induction v using Nat.strong_induction_on with
  | _ v ih =>
    intro ch hch
    by_cases h0 : v = 0
    · rw [binDigits] at hch
      simp [h0] at hch
    · rw [binDigits, dif_neg h0] at hch
      simp only [List.mem_append, List.mem_singleton] at hch
      rcases hch with hch | hch
      · exact ih (v / 2) (Nat.div_lt_self (Nat.pos_of_ne_zero h0) (by norm_num)) ch hch
      · subst hch
        by_cases h2 : v % 2 = 1 <;> simp [h2]

theorem natToBin_mem (v : Nat) : ∀ ch ∈ natToBin v, ch = '0' ∨ ch = '1' := by
  unfold natToBin
  by_cases h0 : v = 0
  · simp [h0]
  · rw [if_neg h0]
    exact binDigits_mem v

theorem natToBin_length_le (v n : Nat) (hv : v < 2 ^ n) (hn : 1 ≤ n) :
    (natToBin v).length ≤ n := by
  unfold natToBin
  by_cases h0 : v = 0
  · simp [h0, hn]
  · rw [if_neg h0]
    exact binDigits_length_le n v hv

theorem zfill_mem (n : Nat) (s : List Char) (hs : ∀ ch ∈ s, ch = '0' ∨ ch = '1') :
    ∀ ch ∈ zfill n s, ch = '0' ∨ ch = '1' := by
  intro ch hch
  unfold zfill at hch
  rcases List.mem_append.mp hch with hch | hch
  · exact Or.inl (List.eq_of_mem_replicate hch)
  · exact hs ch hch

theorem foldl_bits_replicate (k : Nat) : ∀ a : Nat,
    List.foldl (fun acc c => 2 * acc + (if c = '1' then 1 else 0)) a
      (List.replicate k '0') = a * 2 ^ k := by
  induction k with
  | zero => intro a; simp
  | succ k ih =>
    intro a
    rw [List.replicate_succ, List.foldl_cons, ih, if_neg (by decide)]
    ring

theorem foldl_bits_binDigits (v : Nat) : ∀ a : Nat,
    List.foldl (fun acc c => 2 * acc + (if c = '1' then 1 else 0)) a (binDigits v) =
    a * 2 ^ (binDigits v).length + v := by
  induction v using Nat.strong_induction_on with
  | _ v ih =>
    intro a
    by_cases h0 : v = 0
    · subst h0; rw [binDigits]; simp
    · rw [binDigits, dif_neg h0]
      rw [List.foldl_append, ih (v / 2) (Nat.div_lt_self (Nat.pos_of_ne_zero h0) (by norm_num)) a]
      simp only [List.foldl_cons, List.foldl_nil, List.length_append, List.length_singleton]
      rw [pow_succ, ← Nat.mul_assoc]
      by_cases h2 : v % 2 = 1
      · rw [if_pos (by rw [if_pos h2])]
        generalize a * 2 ^ (binDigits (v / 2)).length = m
        omega
      · rw [if_neg (by rw [if_neg h2]; decide)]
        generalize a * 2 ^ (binDigits (v / 2)).length = m
        omega

theorem bitsToNat_natToBin (v : Nat) : bitsToNat (natToBin v) = v := by
  unfold bitsToNat natToBin
  by_cases h0 : v = 0
  · simp [h0]
  · rw [if_neg h0]
    simpa using foldl_bits_binDigits v 0

theorem bitsToNat_zfill (n : Nat) (s : List Char) : bitsToNat (zfill n s) = bitsToNat s := by
  unfold bitsToNat zfill
  rw [List.foldl_append, foldl_bits_replicate]
  simp

theorem genStep_bits_length (g : FIPS186Generator) (x : Nat) :
    ((genStep g x).2.2).length = 160 := by
  simp only [genStep]
  exact zfill_length_of_le 160 _ (natToBin_length_le _ 160 (G_value_lt _) (by norm_num))

theorem genStep_bits_mem (g : FIPS186Generator) (x : Nat) :
    ∀ ch ∈ (genStep g x).2.2, ch = '0' ∨ ch = '1' := by
  simp only [genStep]
  exact zfill_mem 160 _ (natToBin_mem _)

theorem genStep_bits_val (g : FIPS186Generator) (x : Nat) :
    bitsToNat ((genStep g x).2.2) = (genStep g x).2.1 := by
  simp only [genStep]
  rw [bitsToNat_zfill, bitsToNat_natToBin]

theorem genStep_congr (g1 g2 : FIPS186Generator) (x : Nat)
    (hb : g1.b = g2.b) (hq : g1.q = g2.q) (hz : g1.z = g2.z) :
    (genStep g1 x).2.1 = (genStep g2 x).2.1 ∧ (genStep g1 x).2.2 = (genStep g2 x).2.2 ∧
    (genStep g1 x).1.b = (genStep g2 x).1.b ∧ (genStep g1 x).1.q = (genStep g2 x).1.q ∧
    (genStep g1 x).1.z = (genStep g2 x).1.z := by
  simp only [genStep, FIPS186Generator.G]
  rw [hb, hq, hz]
  exact ⟨rfl, rfl, rfl, rfl, rfl⟩

theorem genLoop_step (g : FIPS186Generator) (count : Int) (x : Nat) (acc : List Char)
    (h : (acc.length : Int) < count) :
    genLoop g count x acc =
    genLoop (genStep g x).1 count (genStep g x).2.1 (acc ++ (genStep g x).2.2) := by
  rw [genLoop, dif_pos h]

theorem genLoop_stop (g : FIPS186Generator) (count : Int) (x : Nat) (acc : List Char)
    (h : ¬ (acc.length : Int) < count) :
    genLoop g count x acc = (acc, g) := by
  rw [genLoop, dif_neg h]

theorem genLoop_length (g : FIPS186Generator) (count : Int) (x : Nat) (acc : List Char) :
    count ≤ ((genLoop g count x acc).1.length : Int) := by
  induction g, count, x, acc using genLoop.induct with
  | case1 g count x acc h ih =>
    rw [genLoop_step g count x acc h]
    exact ih
  | case2 g count x acc h =>
    rw [genLoop_stop g count x acc h]
    exact le_of_not_lt h

theorem genLoop_chars (g : FIPS186Generator) (count : Int) (x : Nat) (acc : List Char) :
    (∀ ch ∈ acc, ch = '0' ∨ ch = '1') →
    ∀ ch ∈ (genLoop g count x acc).1, ch = '0' ∨ ch = '1' := by
  induction g, count, x, acc using genLoop.induct with
  | case1 g count x acc h ih =>
    intro hacc
    rw [genLoop_step g count x acc h]
    apply ih
    intro ch hch
    rcases List.mem_append.mp hch with hch | hch
    · exact hacc ch hch
    · exact genStep_bits_mem g x ch hch
  | case2 g count x acc h =>
    intro hacc
    rw [genLoop_stop g count x acc h]
    exact hacc

theorem genLoop_q (g : FIPS186Generator) (count : Int) (x : Nat) (acc : List Char) :
    (genLoop g count x acc).2.q = g.q := by
  induction g, count, x, acc using genLoop.induct with
  | case1 g count x acc h ih =>
    rw [genLoop_step g count x acc h]
    exact ih
  | case2 g count x acc h =>
    rw [genLoop_stop g count x acc h]

theorem genLoop_z_lt (g : FIPS186Generator) (count : Int) (x : Nat) (acc : List Char) :
    0 < g.q → g.z < g.q → (genLoop g count x acc).2.z < g.q := by
  induction g, count, x, acc using genLoop.induct with
  | case1 g count x acc h ih =>
    intro hq hz
    rw [genLoop_step g count x acc h]
    exact ih hq (Nat.mod_lt _ hq)
  | case2 g count x acc h =>
    intro hq hz
    rw [genLoop_stop g count x acc h]
    exact hz

theorem genLoop_z_enter (g : FIPS186Generator) (count : Int) (x : Nat) (acc : List Char)
    (hq : 0 < g.q) (h : (acc.length : Int) < count) :
    (genLoop g count x acc).2.z < g.q := by
  rw [genLoop_step g count x acc h]
  exact genLoop_z_lt (genStep g x).1 count (genStep g x).2.1 (acc ++ (genStep g x).2.2)
    hq (Nat.mod_lt _ hq)

theorem genLoop_congr (g1 : FIPS186Generator) (count : Int) (x : Nat) (acc : List Char) :
    ∀ g2 : FIPS186Generator, g1.b = g2.b → g1.q = g2.q → g1.z = g2.z →
    (genLoop g1 count x acc).1 = (genLoop g2 count x acc).1 ∧
    (genLoop g1 count x acc).2.z = (genLoop g2 count x acc).2.z := by
  induction g1, count, x, acc using genLoop.induct with
  | case1 g1 count x acc h ih =>
    intro g2 hb hq hz
    obtain ⟨hv, hbits, hb2, hq2, hz2⟩ := genStep_congr g1 g2 x hb hq hz
    rw [genLoop_step g1 count x acc h, genLoop_step g2 count x acc h]
    rw [← hv, ← hbits]
    exact ih (genStep g2 x).1 hb2 hq2 hz2
  | case2 g1 count x acc h =>
    intro g2 hb hq hz
    rw [genLoop_stop g1 count x acc h, genLoop_stop g2 count x acc h]
    exact ⟨rfl, hz⟩

theorem initGen_ok_iff (b : Nat) (t : List Char) (seed : Nat) :
    (initGen b t seed).isOk = true ↔
    (160 ≤ b ∧ b ≤ 512 ∧ (stripSpaces t).length = 40 ∧
      (fromhex (stripSpaces t)).isSome = true) := by
  unfold initGen
  by_cases h1 : 160 ≤ b ∧ b ≤ 512
  · rw [if_pos h1]
    by_cases h2 : (stripSpaces t).length = 40
    · rw [if_pos h2]
      cases hfh : fromhex (stripSpaces t) with
      | some bytes => simp [Except.isOk, Except.toBool, h1.1, h1.2, h2]
      | none => simp [Except.isOk, Except.toBool]
    · rw [if_neg h2]
      simp [Except.isOk, Except.toBool, h2]
  · rw [if_neg h1]
    simp only [Except.isOk, Except.toBool]
    constructor
    · intro h; cases h
    · intro h; exact absurd ⟨h.1, h.2.1⟩ h1

theorem initGen_ok_elim (b : Nat) (t : List Char) (seed : Nat) (g : FIPS186Generator)
    (h : initGen b t seed = .ok g) :
    g.b = b ∧ g.q = 2 ^ b - 1 ∧ g.z = seed ∧ 160 ≤ b ∧ b ≤ 512 := by
  unfold initGen at h
  by_cases h1 : 160 ≤ b ∧ b ≤ 512
  · rw [if_pos h1] at h
    by_cases h2 : (stripSpaces t).length = 40
    · rw [if_pos h2] at h
      cases hfh : fromhex (stripSpaces t) with
      | some bytes =>
        rw [hfh] at h
        injection h with h
        subst h
        exact ⟨rfl, rfl, rfl, h1.1, h1.2⟩
      | none =>
        rw [hfh] at h
        simp at h
    · rw [if_neg h2] at h
      simp at h
  · rw [if_neg h1] at h
    simp at h

theorem hex_not_ws (c : Char) (h : isHexDigit c = true) : isPyWhitespace c = false := by
  by_contra hw
  simp only [Bool.not_eq_false] at hw
  unfold isPyWhitespace at hw
  simp only [Bool.or_eq_true, decide_eq_true_eq] at hw
  rcases hw with ((((rfl | rfl) | rfl) | rfl) | rfl) | rfl <;> revert h <;> decide

theorem fromhex_all_hex (l : List Char) :
    (∀ c ∈ l, isHexDigit c = true) → l.length % 2 = 0 → (fromhex l).isSome = true := by
  induction l using fromhex.induct with
  | case1 =>
    intro _ _
    rfl
  | case2 c rest hws ih =>
    intro hhex _
    exact absurd (hex_not_ws c (hhex c (by simp))) (by simp [hws])
  | case3 c hws =>
    intro _ hlen
    simp at hlen
  | case4 c hws d rest2 hguard ih =>
    intro hhex hlen
    rw [fromhex]
    rw [if_neg (by simp [hex_not_ws c (hhex c (by simp))])]
    simp only [hguard, if_true]
    have : (fromhex rest2).isSome = true := by
      apply ih
      · intro a ha
        exact hhex a (by simp [ha])
      · simp only [List.length_cons] at hlen
        omega
    cases hfr : fromhex rest2 with
    | some bs => simp
    | none => rw [hfr] at this; cases this
  | case5 c hws d rest2 hguard =>
    intro hhex _
    exact absurd (by simp [hhex c (by simp), hhex d (by simp)]) hguard

/-- C1: for a validated generator (`160 ≤ b ≤ 512`, modulus `q = 2 ^ b - 1`,
any auxiliary word, any accumulator) and any `count ≥ 1`, `generate_sequence`
never fails (it is total) and returns a string of length exactly `count`
whose characters are all drawn from `{'0','1'}`. -/
theorem generate_length_and_alphabet (g : FIPS186Generator) (count : Int)
    (hb1 : 160 ≤ g.b) (hb2 : g.b ≤ 512) (hq : g.q = 2 ^ g.b - 1) (hc : 1 ≤ count) :
    ((generate_sequence g count).1.length : Int) = count ∧
    ∀ ch ∈ (generate_sequence g count).1, ch = '0' ∨ ch = '1' := by
  have hlen := genLoop_length g count 0 []
  constructor
  · show ((pySliceTo (genLoop g count 0 []).1 count).length : Int) = count
    unfold pySliceTo
    rw [if_neg (by omega)]
    rw [List.length_take]
    omega
  · intro ch hch
    have hch2 : ch ∈ (genLoop g count 0 []).1 := by
      unfold generate_sequence pySliceTo at hch
      rw [if_neg (by omega)] at hch
      exact List.take_subset _ _ hch
    exact genLoop_chars g count 0 [] (by simp) ch hch2

/-- Witness for C1: a fresh generator with `b = 160` and a single requested
bit. -/
theorem generate_length_and_alphabet_witness :
    ((generate_sequence ⟨160, 2 ^ 160 - 1, 0, []⟩ 1).1.length : Int) = 1 ∧
    ∀ ch ∈ (generate_sequence ⟨160, 2 ^ 160 - 1, 0, []⟩ 1).1, ch = '0' ∨ ch = '1' :=
  generate_length_and_alphabet ⟨160, 2 ^ 160 - 1, 0, []⟩ 1 (le_refl 160) (by norm_num)
    rfl (le_refl 1)

/-- C3: one generation step computes `zCandidate = z mod q` with
`q = 2 ^ b - 1`, serialises it big-endian on `⌈b/8⌉` bytes, feeds it to `G`,
sets the new accumulator to `(1 + zCandidate + x) mod q` where `x` is the
previous iteration's digest value (`0` before the first iteration), and
appends exactly the 160-character zero-padded binary representation of the
current digest. -/
theorem generation_step_follows_spec (g : FIPS186Generator) (x : Nat)
    (hq : g.q = 2 ^ g.b - 1) (hb : 160 ≤ g.b) :
    (genStep g x).1.z = (1 + g.z % (2 ^ g.b - 1) + x) % (2 ^ g.b - 1) ∧
    (genStep g x).2.1 =
      beBytesToNat (Gfun (natToBytesBE ((g.b + 7) / 8) (g.z % (2 ^ g.b - 1)))) ∧
    ((genStep g x).2.2).length = 160 ∧
    bitsToNat ((genStep g x).2.2) = (genStep g x).2.1 ∧
    (∀ ch ∈ (genStep g x).2.2, ch = '0' ∨ ch = '1') ∧
    (genStep g x).1.q = g.q ∧ (genStep g x).1.b = g.b ∧ (genStep g x).1.t = g.t := by
  refine ⟨?_, ?_, genStep_bits_length g x, genStep_bits_val g x,
    genStep_bits_mem g x, rfl, rfl, rfl⟩
  · rw [← hq]; rfl
  · rw [← hq]; rfl

/-- Witness for C3 at a concrete generator state. -/
theorem generation_step_follows_spec_witness :
    ((genStep ⟨160, 2 ^ 160 - 1, 5, []⟩ 3).2.2).length = 160 ∧
    (genStep ⟨160, 2 ^ 160 - 1, 5, []⟩ 3).1.z =
      (1 + 5 % (2 ^ 160 - 1) + 3) % (2 ^ 160 - 1) :=
  ⟨(generation_step_follows_spec ⟨160, 2 ^ 160 - 1, 5, []⟩ 3 rfl (le_refl 160)).2.2.1,
   (generation_step_follows_spec ⟨160, 2 ^ 160 - 1, 5, []⟩ 3 rfl (le_refl 160)).1⟩

/-- C10: for every `count ≤ 0` (zero or negative), `generate_sequence`
returns the empty string without failing and leaves the generator state
untouched — the loop body never executes. -/
theorem generate_nonpositive_count (g : FIPS186Generator) (count : Int)
    (h : count ≤ 0) : generate_sequence g count = ([], g) := by
  unfold generate_sequence
  rw [genLoop_stop g count 0 [] (by simp; omega)]
  unfold pySliceTo
  by_cases hneg : count < 0 <;> simp [hneg]

/-- Witness for C10 at a concrete generator and a negative count. -/
theorem generate_nonpositive_count_witness :
    generate_sequence ⟨160, 2 ^ 160 - 1, 12345, []⟩ (-5) =
      ([], ⟨160, 2 ^ 160 - 1, 12345, []⟩) :=
  generate_nonpositive_count ⟨160, 2 ^ 160 - 1, 12345, []⟩ (-5) (by norm_num)

/-- C7: the auxiliary word is dead input: `G` gives the same digest for any
two generator states (its five initial registers are the hard-coded
constants), and two generators sharing `b`, `q` and the accumulator `z` but
differing arbitrarily in their auxiliary word produce identical output and
identical accumulator evolution for the same `generate` call. -/
theorem auxiliary_word_dead_input (g1 g2 : FIPS186Generator) (c : List Nat)
    (count : Int) (hb : g1.b = g2.b) (hq : g1.q = g2.q) (hz : g1.z = g2.z) :
    g1.G c = g2.G c ∧
    (generate_sequence g1 count).1 = (generate_sequence g2 count).1 ∧
    (generate_sequence g1 count).2.z = (generate_sequence g2 count).2.z := by
  obtain ⟨h1, h2⟩ := genLoop_congr g1 count 0 [] g2 hb hq hz
  refine ⟨rfl, ?_, h2⟩
  show pySliceTo (genLoop g1 count 0 []).1 count = pySliceTo (genLoop g2 count 0 []).1 count
  rw [h1]

/-- Witness for C7: two generators that differ only in the stored auxiliary
word. -/
theorem auxiliary_word_dead_input_witness :
    FIPS186Generator.G ⟨160, 2 ^ 160 - 1, 7, List.replicate 20 0⟩ [1, 2, 3] =
      FIPS186Generator.G ⟨160, 2 ^ 160 - 1, 7, List.replicate 20 255⟩ [1, 2, 3] ∧
    (generate_sequence ⟨160, 2 ^ 160 - 1, 7, List.replicate 20 0⟩ 1).1 =
      (generate_sequence ⟨160, 2 ^ 160 - 1, 7, List.replicate 20 255⟩ 1).1 :=
  ⟨(auxiliary_word_dead_input ⟨160, 2 ^ 160 - 1, 7, List.replicate 20 0⟩
      ⟨160, 2 ^ 160 - 1, 7, List.replicate 20 255⟩ [1, 2, 3] 1 rfl rfl rfl).1,
   (auxiliary_word_dead_input ⟨160, 2 ^ 160 - 1, 7, List.replicate 20 0⟩
      ⟨160, 2 ^ 160 - 1, 7, List.replicate 20 255⟩ [1, 2, 3] 1 rfl rfl rfl).2.1⟩

/-- C9 counterexample: `random.getrandbits(b)` can return `2 ^ b - 1`, and
the freshly constructed state then has `z = 2 ^ 160 - 1 = modulus`, so the
claimed invariant `z < modulus = 2 ^ seedBits - 1` fails immediately after
construction. -/
theorem accumulator_range_counterexample :
    (2 ^ 160 - 1 : Nat) < 2 ^ 160 ∧
    initGen 160 (List.replicate 40 '0') (2 ^ 160 - 1) =
      .ok ⟨160, 2 ^ 160 - 1, 2 ^ 160 - 1, List.replicate 20 0⟩ ∧
    ¬ ((2 ^ 160 - 1 : Nat) < 2 ^ 160 - 1) :=
  ⟨Nat.sub_lt (pow_pos (by norm_num) 160) (by norm_num), rfl, lt_irrefl _⟩

/-- C9 (amended): after construction the accumulator satisfies only
`z < 2 ^ b` (so `z ≤ modulus`, with `z = modulus` reachable); after every
`generate` call with `count ≥ 1` it satisfies `z < modulus`, and
`z < modulus` is preserved by every further `generate` call. -/
theorem accumulator_range (b seed : Nat) (t : List Char) (g : FIPS186Generator)
    (hinit : initGen b t seed = .ok g) (hseed : seed < 2 ^ b) :
    g.q = 2 ^ b - 1 ∧ g.z < 2 ^ b ∧
    (∀ count : Int, 1 ≤ count → (generate_sequence g count).2.z < g.q) ∧
    (∀ g2 : FIPS186Generator, ∀ count : Int, g2.z < g2.q →
      (generate_sequence g2 count).2.z < g2.q) := by
  obtain ⟨hb, hq, hz, hb1, hb2⟩ := initGen_ok_elim b t seed g hinit
  have hqpos : 0 < g.q := by
    rw [hq]
    have h1 : 2 ^ 160 ≤ 2 ^ b := Nat.pow_le_pow_right (by norm_num) hb1
    have h2 : (1 : Nat) < 2 ^ 160 := by norm_num
    omega
  refine ⟨hq, by rw [hz]; exact hseed, ?_, ?_⟩
  · intro count hc
    exact genLoop_z_enter g count 0 [] hqpos (by simp; omega)
  · intro g2 count hlt
    exact genLoop_z_lt g2 count 0 [] (lt_of_le_of_lt (Nat.zero_le _) hlt) hlt

/-- Witness for C9 at a concrete construction. -/
theorem accumulator_range_witness :
    (⟨160, 2 ^ 160 - 1, 0, List.replicate 20 0⟩ : FIPS186Generator).q = 2 ^ 160 - 1 ∧
    (⟨160, 2 ^ 160 - 1, 0, List.replicate 20 0⟩ : FIPS186Generator).z < 2 ^ 160 :=
  ⟨(accumulator_range 160 0 (List.replicate 40 '0') _ rfl (pow_pos (by norm_num) 160)).1,
   (accumulator_range 160 0 (List.replicate 40 '0') _ rfl (pow_pos (by norm_num) 160)).2.1⟩

/-- C4 (code behaviour at the degenerate inputs): for every nonempty bit
string whose bits are all equal (`π = 0` or `π = 1`), the runs test raises a
raw `ZeroDivisionError` — the denominator `2·(nπ(1−π)) ** 0.5` is exactly
zero and there is no guard; the code defines no `DegenerateSequenceError`. -/
theorem runs_test_all_equal_zero_division (bits : List Char) (hne : bits ≠ [])
    (hsame : (∀ c ∈ bits, c = '1') ∨ (∀ c ∈ bits, c ≠ '1')) :
    runs_test bits = .error "ZeroDivisionError" := by
  have hn : bits.length ≠ 0 := fun h => hne (List.length_eq_zero.mp h)
  have hQ : ((bits.length : ℚ)) ≠ 0 := by exact_mod_cast hn
  simp only [runs_test]
  rw [if_neg hn]
  rcases hsame with hall | hnone
  · have hones : bits.count '1' = bits.length :=
      List.count_eq_length.mpr (fun b hb => (hall b hb).symm)
    have hp : (bits.length : ℚ) * ((bits.count '1' : ℚ) / (bits.length : ℚ)) *
        (1 - (bits.count '1' : ℚ) / (bits.length : ℚ)) = 0 := by
      rw [hones, div_self hQ]
      ring
    rw [if_pos hp]
  · have hones : bits.count '1' = 0 := by
      rw [List.count_eq_zero]
      intro hmem
      exact hnone '1' hmem rfl
    have hp : (bits.length : ℚ) * ((bits.count '1' : ℚ) / (bits.length : ℚ)) *
        (1 - (bits.count '1' : ℚ) / (bits.length : ℚ)) = 0 := by
      rw [hones]
      norm_num
    rw [if_pos hp]

/-- Witness for C4 at the specification's own literal example `"0000"`. -/
theorem runs_test_all_equal_zero_division_witness :
    runs_test ['0', '0', '0', '0'] = .error "ZeroDivisionError" :=
  runs_test_all_equal_zero_division ['0', '0', '0', '0'] (by decide)
    (Or.inr (by decide))

/-- C5 (code behaviour at the degenerate input): on every bit string of
length 2 (`L = k − 1 = 1`) the cumulative-sums test raises a raw
`ZeroDivisionError` when dividing by `(k·(L−1)/(L+1)) ** 0.5 = 0.0` at the
first state; the code defines no `DegenerateSequenceError`. -/
theorem cusum_length_two_zero_division (bits : List Char) (hk : bits.length = 2) :
    cumulative_sums_test_extended bits = .error "ZeroDivisionError" := by
  simp only [cumulative_sums_test_extended]
  rw [hk]
  norm_num

/-- Witness for C5 at the two-character string `"01"`. -/
theorem cusum_length_two_zero_division_witness :
    cumulative_sums_test_extended ['0', '1'] = .error "ZeroDivisionError" :=
  cusum_length_two_zero_division ['0', '1'] rfl

/-- C6 counterexample: `G` does not fail on a 65-byte block — it returns a
normal 20-byte digest equal to the digest of the block's first 64 bytes,
silently processing a prefix instead of raising anything. -/
theorem G_oversized_counterexample :
    (List.replicate 64 0 ++ [7] : List Nat).length = 65 ∧
    Gfun (List.replicate 64 0 ++ [7]) = Gfun ((List.replicate 64 0 ++ [7]).take 64) ∧
    (Gfun (List.replicate 64 0 ++ [7])).length = 20 := by
  exact ⟨by simp, by rfl, Gfun_length _⟩

/-- C6 (amended): `G` never raises.  For blocks of at most 64 bytes it
right-pads with zero bytes to exactly 64 bytes (no padding when the block is
already 64 bytes); for longer blocks it adds no padding and only the first
64 bytes reach the word schedule, so the digest equals that of the 64-byte
prefix. -/
theorem G_padding_and_prefix (c : List Nat) :
    Gfun c = Gfun (c.take 64) ∧
    (c.length ≤ 64 →
      (padBlock c).length = 64 ∧ (padBlock c).take c.length = c ∧
      (padBlock c).drop c.length = List.replicate (64 - c.length) 0) ∧
    (c.length = 64 → padBlock c = c) := by
  refine ⟨?_, ?_, ?_⟩
  · by_cases h : c.length ≤ 64
    · rw [List.take_of_length_le h]
    · have h64 : 64 ≤ c.length := by omega
      have h1 : padBlock c = c := by
        unfold padBlock
        rw [Nat.sub_eq_zero_of_le h64]
        simp
      have h2 : padBlock (c.take 64) = c.take 64 := by
        unfold padBlock
        rw [List.length_take]
        have hm : (64 : Nat) ⊓ c.length = 64 := by omega
        rw [hm, Nat.sub_self]
        simp
      have hw : words c = words (c.take 64) := by
        unfold words
        apply List.map_congr_left
        intro i hi
        have hi16 : i < 16 := List.mem_range.mp hi
        congr 1
        rw [List.drop_take, List.take_take]
        congr 1
        omega
      simp only [Gfun]
      rw [h1, h2, hw]
  · intro hle
    refine ⟨?_, ?_, ?_⟩
    · unfold padBlock
      simp only [List.length_append, List.length_replicate]
      omega
    · unfold padBlock
      exact List.take_left c _
    · unfold padBlock
      exact List.drop_left c _
  · intro h64
    unfold padBlock
    rw [h64]
    simp

/-- Witness for C6 at the two-byte block `[1, 2]`. -/
theorem G_padding_and_prefix_witness :
    (padBlock [1, 2]).length = 64 ∧ (padBlock [1, 2]).take 2 = [1, 2] := by
  have h := G_padding_and_prefix [1, 2]
  exact ⟨(h.2.1 (by norm_num)).1, (h.2.1 (by norm_num)).2.1⟩

/-- C8 counterexample: a word of 40 hex digits preceded by a tab is, after
removing all whitespace, a valid 40-hex-character word with `b` in range,
yet construction rejects it — `t.replace(" ", "")` strips only spaces, so
the length check sees 41 characters. -/
theorem construction_whitespace_counterexample :
    ((160 : Nat) ≤ 160 ∧ (160 : Nat) ≤ 512) ∧
    (stripAllWhitespace ('\t' :: List.replicate 40 'a')).length = 40 ∧
    (∀ c ∈ stripAllWhitespace ('\t' :: List.replicate 40 'a'), isHexDigit c = true) ∧
    (initGen 160 ('\t' :: List.replicate 40 'a') 0).isOk = false := by
  exact ⟨⟨le_refl 160, by norm_num⟩, by decide, by decide, by decide⟩

/-- C8 (amended): construction succeeds exactly when `160 ≤ b ≤ 512`, the
word stripped of spaces (and only spaces) has exactly 40 characters, and the
stripped text parses under `bytes.fromhex`; 40 hex digits interspersed with
spaces are accepted, and acceptance depends on the word only through its
space-stripped form. -/
theorem construction_validation (b : Nat) (t : List Char) (seed : Nat) :
    ((initGen b t seed).isOk = true ↔
      (160 ≤ b ∧ b ≤ 512 ∧ (stripSpaces t).length = 40 ∧
        (fromhex (stripSpaces t)).isSome = true)) ∧
    ((160 ≤ b ∧ b ≤ 512) → (stripSpaces t).length = 40 →
      (∀ c ∈ stripSpaces t, isHexDigit c = true) → (initGen b t seed).isOk = true) ∧
    (∀ t2 : List Char, stripSpaces t2 = stripSpaces t →
      (initGen b t2 seed).isOk = (initGen b t seed).isOk) := by
  refine ⟨initGen_ok_iff b t seed, ?_, ?_⟩
  · intro hb hlen hhex
    rw [initGen_ok_iff]
    refine ⟨hb.1, hb.2, hlen, ?_⟩
    apply fromhex_all_hex _ hhex
    rw [hlen]
  · intro t2 ht
    unfold initGen
    rw [ht]

/-- Witness for C8: a 40-character hex word is accepted at `b = 160`. -/
theorem construction_validation_witness :
    (initGen 160 (List.replicate 40 '0') 0).isOk = true :=
  (construction_validation 160 (List.replicate 40 '0') 0).2.1
    ⟨by norm_num, by norm_num⟩ (by decide) (by decide)
